import Mathlib

/-!
Verification of the Boggle word-search core (`src/boggle.cpp`).

The C++ core is embedded shallowly:

* `Grid<char>` (an N×N board of letters) is a row-major `List (List Char)`;
  `BOARD_SIZE` is a constant `N` declared in `boggle.h` (a header that is not
  part of the sources), so every definition is parametrised by `n : Nat`.
* `std::string` is `List Char`.  `Set<string>` values are represented as
  `List (List Char)` and reasoned about through membership, which is exactly
  the observable content of a set of strings.
* `searchForWord` and `exhaustiveSearch` receive `Grid<char> board` BY VALUE
  in the C++ source, so each recursive call works on its own copy of the
  board; the embedding passes the board functionally, which models exactly
  that copy semantics.  `board[row][col] = integerToChar(0)` becomes
  `setCell board row col nul`.
* The C++ recursions are embedded with an explicit fuel argument consumed
  once per recursive call (`searchForWordF`, `exhaustiveSearchF`); the
  wrapper functions `searchForWord` and `exhaustiveSearch` supply the exact
  fuel that the structure of the algorithm needs (the word length for the
  verifier, the number of non-NUL cells for the enumerator).  The theorems
  for the termination claims show that any larger fuel gives the same
  result, i.e. that the chosen bounds really do dominate the recursion
  depth of the C++ functions.
-/

/-- The character `integerToChar(0)` used by the C++ code to mark a cell of
the board as in use (`board[row][col] = integerToChar(0)`). -/
def nul : Char := Char.ofNat 0

/-- A board: row-major list of rows of letters, embedding `Grid<char>`. -/
abbrev Board := List (List Char)

/-- Reading `board[row][col]`.  The C++ code only reads cells after an
`inBounds` check on a `BOARD_SIZE`×`BOARD_SIZE` grid, so the default value
returned for an index outside the underlying lists is never observable on a
well-formed board; `nul` is used as that default. -/
def getCell (b : Board) (row col : Int) : Char :=
  (b.getD row.toNat []).getD col.toNat nul

/-- Writing `board[row][col] = ch`. -/
def setCell (b : Board) (row col : Int) (ch : Char) : Board :=
  b.set row.toNat ((b.getD row.toNat []).set col.toNat ch)

/-- `inBounds(row, col)` from boggle.cpp:
`row >= 0 && row < BOARD_SIZE && col >= 0 && col < BOARD_SIZE`,
with `BOARD_SIZE` the parameter `n`. -/
def inBounds (n : Nat) (row col : Int) : Bool :=
  decide (0 ≤ row) && decide (row < (n : Int)) &&
    decide (0 ≤ col) && decide (col < (n : Int))

/-- The board is an `n`×`n` grid, as `Grid<char> board(BOARD_SIZE, BOARD_SIZE)`
guarantees for every board the C++ program ever builds. -/
def WellFormed (n : Nat) (b : Board) : Prop :=
  b.length = n ∧ ∀ rowList ∈ b, rowList.length = n

/-- The nine offsets enumerated by the nested loops
`for(int i = -1; i <= 1; i++) for(int j = -1; j <= 1; j++)` in
`searchForWord` and `exhaustiveSearch`, in loop order. -/
def offsets : List (Int × Int) :=
  [(-1,-1), (-1,0), (-1,1), (0,-1), (0,0), (0,1), (1,-1), (1,0), (1,1)]

/-- `getPoints(word)` from boggle.cpp: score from word length. -/
def getPoints (word : List Char) : Int :=
  if word.length = 4 then 1
  else if word.length = 5 then 2
  else if word.length = 6 then 3
  else if word.length = 7 then 5
  else if word.length > 7 then 11
  else 0

/-- `searchForWord` with explicit fuel, one unit consumed per recursive
call.  Body from boggle.cpp lines 224-246: the cell just reached is
overwritten with `integerToChar(0)` in this call's own copy of the board
("ensures letters are used only once"); if the accumulated `potentialWord`
equals `word` the search succeeds; otherwise every offset `(i,j)` with
`-1 ≤ i,j ≤ 1` is tried in loop order, and the search recurses into
`(row+i, col+j)` whenever that cell is in bounds and
`startsWith(word, potentialWord + board[row+i][col+j])` holds
(`List.isPrefixOf` is `startsWith` with the argument order of strlib).
The early `return true` of the loop is the short-circuit of `List.any`. -/
def searchForWordF (n : Nat) : Nat → Board → List Char → List Char → Int → Int → Bool
  | 0, _, _, _, _, _ => false
  | fuel+1, board, word, potentialWord, row, col =>
    let board1 := setCell board row col nul
    if potentialWord = word then true
    else
      offsets.any fun ij =>
        let searchWord := potentialWord ++ [getCell board1 (row + ij.1) (col + ij.2)]
        inBounds n (row + ij.1) (col + ij.2) && searchWord.isPrefixOf word &&
          searchForWordF n fuel board1 word searchWord (row + ij.1) (col + ij.2)

/-- `searchForWord(board, word, potentialWord, row, col)`: the fuel
`word.length - potentialWord.length + 1` is exactly the maximal further
recursion depth, since each recursive call extends `potentialWord` by one
letter while it must stay a prefix of `word` (the theorem for the
termination claim proves any larger fuel gives the same value). -/
def searchForWord (n : Nat) (board : Board) (word potentialWord : List Char)
    (row col : Int) : Bool :=
  searchForWordF n (word.length - potentialWord.length + 1) board word potentialWord row col

/-- `humanWordSearch(board, word)` from boggle.cpp lines 205-217: scan every
cell; where the letter equals `word[0]`, run `searchForWord` starting there
with `charToString(start)` as the accumulated word.  `word[0]` on an empty
`std::string` reads the terminating null character, hence `word.headD nul`. -/
def humanWordSearch (n : Nat) (board : Board) (word : List Char) : Bool :=
  (List.range n).any fun row =>
    (List.range n).any fun col =>
      let start := getCell board row col
      decide (start = word.headD nul) && searchForWord n board word [start] row col

/-- Modelled from the spec: the `Lexicon` collaborator (Stanford
`lexicon.h`, not part of the sources) as the two query capabilities the core
consumes, `contains(word)` and `containsPrefix(prefix)`. -/
structure Lexicon where
  contains : List Char → Bool
  containsPrefix : List Char → Bool

/-- Modelled from the spec: a lexicon determined by its finite list of
entries — `contains` is membership and `containsPrefix p` is true iff some
entry starts with `p` (including the prefix itself being a full entry). -/
def lexiconOfWords (ws : List (List Char)) : Lexicon where
  contains w := ws.contains w
  containsPrefix p := ws.any fun w => p.isPrefixOf w

/-- Number of cells of the board not holding the NUL in-use marker; the
recursion depth of `exhaustiveSearch` is bounded by it. -/
def nonNulCount (b : Board) : Nat :=
  (b.map fun rowList => rowList.countP fun ch => !(ch == nul)).sum

/-- `exhaustiveSearch` with explicit fuel, one unit consumed per recursive
call.  Body from boggle.cpp lines 289-311: mark the current cell with
`integerToChar(0)` in this call's own copy of the board; if the dictionary
contains `potentialWord`, its length is at least `MIN_WORD_LENGTH`
(parameter `minLength`, the constant is declared in boggle.h) and the human
did not already find it, add it; then, if `potentialWord` is a prefix of
some dictionary entry, try all nine offsets, recursing into each in-bounds
neighbor that is not marked NUL and whose extended word is still a prefix of
some dictionary entry.  `foundWords += ...` on `Set<string>` is modelled by
list append, read up to membership. -/
def exhaustiveSearchF (n minLength : Nat) (lex : Lexicon)
    (humanWords : List (List Char)) :
    Nat → Board → List Char → Int → Int → List (List Char)
  | 0, _, _, _, _ => []
  | fuel+1, board, potentialWord, row, col =>
    let board1 := setCell board row col nul
    let foundWords : List (List Char) :=
      if lex.contains potentialWord && decide (minLength ≤ potentialWord.length) &&
          !(humanWords.contains potentialWord) then [potentialWord] else []
    if lex.containsPrefix potentialWord then
      foundWords ++ offsets.flatMap fun ij =>
        let searchWord := potentialWord ++ [getCell board1 (row + ij.1) (col + ij.2)]
        if inBounds n (row + ij.1) (col + ij.2) &&
            !(getCell board1 (row + ij.1) (col + ij.2) == nul) &&
            lex.containsPrefix searchWord then
          exhaustiveSearchF n minLength lex humanWords fuel board1 searchWord
            (row + ij.1) (col + ij.2)
        else []
    else foundWords

/-- `exhaustiveSearch(board, dictionary, humanWords, potentialWord, row, col)`:
the fuel `nonNulCount (setCell board row col nul) + 1` dominates the further
recursion depth, because each recursive call zeroes one more non-NUL cell in
its own copy of the board (the theorem for the termination claim proves any
larger fuel gives the same value). -/
def exhaustiveSearch (n minLength : Nat) (board : Board) (lex : Lexicon)
    (humanWords : List (List Char)) (potentialWord : List Char) (row col : Int) :
    List (List Char) :=
  exhaustiveSearchF n minLength lex humanWords
    (nonNulCount (setCell board row col nul) + 1) board potentialWord row col

/-- `computerWordSearch(board, dictionary, humanWords)` from boggle.cpp lines
273-282: union, over every cell of the board, of the exhaustive search
started at that cell with `charToString(board[row][col])` accumulated. -/
def computerWordSearch (n minLength : Nat) (board : Board) (lex : Lexicon)
    (humanWords : List (List Char)) : List (List Char) :=
  (List.range n).flatMap fun row =>
    (List.range n).flatMap fun col =>
      exhaustiveSearch n minLength board lex humanWords [getCell board row col] row col

/-- Modelled from the spec: the variant of `exhaustiveSearch` "with the
`containsPrefix` pruning step removed" — identical to `exhaustiveSearchF`
except that the two `dictionary.containsPrefix` tests (boggle.cpp lines 297
and 302) are gone; the in-bounds and not-in-use tests of line 300 remain. -/
def exhaustiveSearchNoPruneF (n minLength : Nat) (lex : Lexicon)
    (humanWords : List (List Char)) :
    Nat → Board → List Char → Int → Int → List (List Char)
  | 0, _, _, _, _ => []
  | fuel+1, board, potentialWord, row, col =>
    let board1 := setCell board row col nul
    let foundWords : List (List Char) :=
      if lex.contains potentialWord && decide (minLength ≤ potentialWord.length) &&
          !(humanWords.contains potentialWord) then [potentialWord] else []
    foundWords ++ offsets.flatMap fun ij =>
      let searchWord := potentialWord ++ [getCell board1 (row + ij.1) (col + ij.2)]
      if inBounds n (row + ij.1) (col + ij.2) &&
          !(getCell board1 (row + ij.1) (col + ij.2) == nul) then
        exhaustiveSearchNoPruneF n minLength lex humanWords fuel board1 searchWord
          (row + ij.1) (col + ij.2)
      else []

/-- Unpruned `exhaustiveSearch`, same fuel as the pruned one. -/
def exhaustiveSearchNoPrune (n minLength : Nat) (board : Board) (lex : Lexicon)
    (humanWords : List (List Char)) (potentialWord : List Char) (row col : Int) :
    List (List Char) :=
  exhaustiveSearchNoPruneF n minLength lex humanWords
    (nonNulCount (setCell board row col nul) + 1) board potentialWord row col

/-- Unpruned `computerWordSearch`. -/
def computerWordSearchNoPrune (n minLength : Nat) (board : Board) (lex : Lexicon)
    (humanWords : List (List Char)) : List (List Char) :=
  (List.range n).flatMap fun row =>
    (List.range n).flatMap fun col =>
      exhaustiveSearchNoPrune n minLength board lex humanWords
        [getCell board row col] row col

/-- `humanWordSearch` takes its board by reference (`Grid<char>& board`) but
its body only reads it: `searchForWord` receives `Grid<char> board` by
value, so the C++ call copies the grid and all NUL in-use markings happen in
copies.  This definition returns, next to the result, the final state of the
grid the caller's reference denotes — no statement of the body writes
through the reference, so that state is the input board. -/
def humanWordSearchSt (n : Nat) (board : Board) (word : List Char) :
    Bool × Board :=
  (humanWordSearch n board word, board)

/-- `computerWordSearch` likewise only reads the board referenced by its
`Grid<char>& board` parameter: `exhaustiveSearch` takes its grid by value. -/
def computerWordSearchSt (n minLength : Nat) (board : Board) (lex : Lexicon)
    (humanWords : List (List Char)) : List (List Char) × Board :=
  (computerWordSearch n minLength board lex humanWords, board)

/-- Uppercase letter, as the board letters and dictionary words of the game
are (`toUpperCase` is applied to every user input). -/
def isUpper (ch : Char) : Bool :=
  decide ('A' ≤ ch) && decide (ch ≤ 'Z')

/-- 8-adjacency of two distinct board coordinates (orthogonal or diagonal
neighbors: Chebyshev distance 1). -/
def adjacentCells (a b : Int × Int) : Prop :=
  a ≠ b ∧ (a.1 - b.1).natAbs ≤ 1 ∧ (a.2 - b.2).natAbs ≤ 1

instance (a b : Int × Int) : Decidable (adjacentCells a b) := by
  unfold adjacentCells; infer_instance

/-- `word` can be read along `p` on the board: the cells of `p` are pairwise
distinct, in bounds, consecutively 8-adjacent, and their letters spell
`word`. -/
def isValidPath (n : Nat) (board : Board) (word : List Char)
    (p : List (Int × Int)) : Prop :=
  p.Nodup ∧ (∀ cell ∈ p, inBounds n cell.1 cell.2 = true) ∧
    List.Chain' adjacentCells p ∧
    p.map (fun cell => getCell board cell.1 cell.2) = word

instance (n : Nat) (board : Board) (word : List Char) (p : List (Int × Int)) :
    Decidable (isValidPath n board word p) := by
  unfold isValidPath; infer_instance

/-- The path search as a relation, following the recursion of
`searchForWord`: from the already-visited cell `prev` (just overwritten with
NUL in `board`), the coordinates in `q` spell `suffix`, each step moving to
a cell at Chebyshev distance at most 1, in bounds, holding the required
letter on the board in which all previously visited cells are NUL, and each
visited cell is in turn overwritten with NUL. -/
def spellsFrom (n : Nat) : Board → List Char → Int × Int → List (Int × Int) → Prop
  | _, [], _, [] => True
  | board, ch :: rest, prev, cell :: q =>
      (cell.1 - prev.1).natAbs ≤ 1 ∧ (cell.2 - prev.2).natAbs ≤ 1 ∧
        inBounds n cell.1 cell.2 = true ∧ getCell board cell.1 cell.2 = ch ∧
        spellsFrom n (setCell board cell.1 cell.2 nul) rest cell q
  | _, _ :: _, _, [] => False
  | _, [], _, _ :: _ => False

/-! ### Basic lemmas about the board embedding -/

lemma inBounds_iff {n : Nat} {r c : Int} :
    inBounds n r c = true ↔ 0 ≤ r ∧ r < (n : Int) ∧ 0 ≤ c ∧ c < (n : Int) := by
  simp [inBounds, and_assoc]

lemma getCell_eq (b : Board) (row col : Int) :
    getCell b row col = (b.getD row.toNat []).getD col.toNat nul := rfl

lemma setCell_eq (b : Board) (row col : Int) (ch : Char) :
    setCell b row col ch = b.set row.toNat ((b.getD row.toNat []).set col.toNat ch) := rfl

lemma getD_set_self (l : List (List Char)) (i : Nat) (x : List Char) (hi : i < l.length) :
    (l.set i x).getD i [] = x := by
  rw [List.getD_eq_getElem?_getD, List.getElem?_set_self (by simpa using hi)]
  rfl

lemma getD_set_ne (l : List (List Char)) (i j : Nat) (x : List Char) (h : i ≠ j) :
    (l.set i x).getD j [] = l.getD j [] := by
  rw [List.getD_eq_getElem?_getD, List.getElem?_set_ne h, ← List.getD_eq_getElem?_getD]

lemma getDRow_set_ne (l : List Char) (i j : Nat) (x : Char) (h : i ≠ j) :
    (l.set i x).getD j nul = l.getD j nul := by
  rw [List.getD_eq_getElem?_getD, List.getElem?_set_ne h, ← List.getD_eq_getElem?_getD]

lemma getCell_setCell_nul (b : Board) (row col : Int) :
    getCell (setCell b row col nul) row col = nul := by
  rw [getCell_eq, setCell_eq]
  by_cases hri : row.toNat < b.length
  · rw [getD_set_self b _ _ hri]
    by_cases hci : col.toNat < (b.getD row.toNat []).length
    · rw [List.getD_eq_getElem?_getD, List.getElem?_set_self (by simpa using hci)]
      rfl
    · rw [List.set_eq_of_length_le (by omega), List.getD_eq_default]
      omega
  · have hrow0 : b.getD row.toNat [] = [] := List.getD_eq_default b [] (by omega)
    rw [List.set_eq_of_length_le (by omega), hrow0]
    rfl

lemma getCell_setCell_ne {n : Nat} (b : Board) {r1 c1 r2 c2 : Int} (v : Char)
    (h1 : inBounds n r1 c1 = true) (h2 : inBounds n r2 c2 = true)
    (hne : ¬(r1 = r2 ∧ c1 = c2)) :
    getCell (setCell b r1 c1 v) r2 c2 = getCell b r2 c2 := by
  rw [inBounds_iff] at h1 h2
  rw [getCell_eq, setCell_eq, getCell_eq]
  by_cases hrow : r1.toNat = r2.toNat
  · have hr : r1 = r2 := by omega
    have hc : c1.toNat ≠ c2.toNat := by
      have : c1 ≠ c2 := by
        intro hcc
        exact hne ⟨hr, hcc⟩
      omega
    by_cases hri : r1.toNat < b.length
    · rw [← hrow, getD_set_self b _ _ hri, getDRow_set_ne _ _ _ _ hc]
    · rw [List.set_eq_of_length_le (by omega)]
  · rw [getD_set_ne b _ _ _ hrow]

/-! ### Counting non-NUL cells -/

lemma nonNulCount_nil : nonNulCount [] = 0 := rfl

lemma nonNulCount_cons (r : List Char) (t : Board) :
    nonNulCount (r :: t) = (r.countP fun ch => !(ch == nul)) + nonNulCount t := by
  simp [nonNulCount]

lemma countP_set_nul_le : ∀ (l : List Char) (i : Nat),
    ((l.set i nul).countP fun ch => !(ch == nul)) ≤ l.countP fun ch => !(ch == nul)
  | [], _ => by simp
  | a :: t, 0 => by
      simp only [List.set_cons_zero, List.countP_cons]
      have : (!(nul == nul)) = false := by decide
      simp [this]
  | a :: t, i+1 => by
      simp only [List.set_cons_succ, List.countP_cons]
      have := countP_set_nul_le t i
      omega

lemma countP_set_nul_lt : ∀ (l : List Char) (i : Nat), l.getD i nul ≠ nul →
    ((l.set i nul).countP fun ch => !(ch == nul)) < l.countP fun ch => !(ch == nul)
  | [], i, h => by simp at h
  | a :: t, 0, h => by
      simp only [List.getD_cons_zero] at h
      simp only [List.set_cons_zero, List.countP_cons]
      have h1 : (!(nul == nul)) = false := by decide
      have h2 : (!(a == nul)) = true := by simpa using h
      simp [h1, h2]
  | a :: t, i+1, h => by
      simp only [List.getD_cons_succ] at h
      simp only [List.set_cons_succ, List.countP_cons]
      have := countP_set_nul_lt t i h
      omega

lemma nonNulCount_set_le : ∀ (b : Board) (ri ci : Nat),
    nonNulCount (b.set ri ((b.getD ri []).set ci nul)) ≤ nonNulCount b
  | [], _, _ => by simp
  | r :: t, 0, ci => by
      simp only [List.getD_cons_zero, List.set_cons_zero, nonNulCount_cons]
      have := countP_set_nul_le r ci
      omega
  | r :: t, ri+1, ci => by
      simp only [List.getD_cons_succ, List.set_cons_succ, nonNulCount_cons]
      have := nonNulCount_set_le t ri ci
      omega

lemma nonNulCount_set_lt : ∀ (b : Board) (ri ci : Nat),
    (b.getD ri []).getD ci nul ≠ nul →
    nonNulCount (b.set ri ((b.getD ri []).set ci nul)) < nonNulCount b
  | [], ri, ci, h => by simp at h
  | r :: t, 0, ci, h => by
      simp only [List.getD_cons_zero] at h
      simp only [List.getD_cons_zero, List.set_cons_zero, nonNulCount_cons]
      have := countP_set_nul_lt r ci h
      omega
  | r :: t, ri+1, ci, h => by
      simp only [List.getD_cons_succ] at h
      simp only [List.getD_cons_succ, List.set_cons_succ, nonNulCount_cons]
      have := nonNulCount_set_lt t ri ci h
      omega

lemma nonNulCount_setCell_le (b : Board) (row col : Int) :
    nonNulCount (setCell b row col nul) ≤ nonNulCount b :=
  nonNulCount_set_le b row.toNat col.toNat

lemma nonNulCount_setCell_lt (b : Board) (row col : Int)
    (h : getCell b row col ≠ nul) :
    nonNulCount (setCell b row col nul) < nonNulCount b :=
  nonNulCount_set_lt b row.toNat col.toNat h

lemma nonNulCount_le_of_rows : ∀ (b : Board) (m : Nat),
    (∀ r ∈ b, r.length ≤ m) → nonNulCount b ≤ b.length * m
  | [], _, _ => by simp [nonNulCount]
  | r :: t, m, h => by
      have h1 : (r.countP fun ch => !(ch == nul)) ≤ m :=
        le_trans (List.countP_le_length _) (h r (by simp))
      have h2 := nonNulCount_le_of_rows t m fun x hx => h x (by simp [hx])
      simp only [nonNulCount_cons, List.length_cons]
      calc (r.countP fun ch => !(ch == nul)) + nonNulCount t
          ≤ m + t.length * m := by omega
        _ = (t.length + 1) * m := by ring

lemma nonNulCount_le_of_wellFormed {n : Nat} {b : Board} (h : WellFormed n b) :
    nonNulCount b ≤ n * n := by
  have := nonNulCount_le_of_rows b n fun r hr => le_of_eq (h.2 r hr)
  rw [h.1] at this
  exact this

/-! ### Offsets and adjacency -/

lemma mem_offsets {ij : Int × Int} :
    ij ∈ offsets ↔ ij.1.natAbs ≤ 1 ∧ ij.2.natAbs ≤ 1 := by
  obtain ⟨i, j⟩ := ij
  constructor
  · intro h
    fin_cases h <;> simp
  · rintro ⟨h1, h2⟩
    simp only at h1 h2
    have hi : i = -1 ∨ i = 0 ∨ i = 1 := by omega
    have hj : j = -1 ∨ j = 0 ∨ j = 1 := by omega
    rcases hi with rfl | rfl | rfl <;> rcases hj with rfl | rfl | rfl <;> simp [offsets]

/-! ### Prefix lemmas -/

lemma prefix_snoc_iff : ∀ (pW word : List Char) (x : Char),
    (pW ++ [x] <+: word) ↔
      pW <+: word ∧ word.drop pW.length = x :: word.drop (pW.length + 1)
  | [], word, x => by
      cases word with
      | nil => simp
      | cons b w => simp [List.cons_prefix_cons, eq_comm]
  | a :: pW, word, x => by
      cases word with
      | nil => simp
      | cons b w =>
          simp only [List.cons_append, List.cons_prefix_cons, List.length_cons,
            List.drop_succ_cons]
          rw [prefix_snoc_iff pW w x]
          tauto

lemma proper_prefix_length_lt {pW word : List Char}
    (hpre : pW <+: word) (hne : pW ≠ word) : pW.length < word.length := by
  have hle := hpre.length_le
  rcases Nat.lt_or_ge pW.length word.length with h | h
  · exact h
  · exact absurd (List.IsPrefix.eq_of_length hpre (by omega)) hne

/-! ### Congruence helpers -/

lemma anyCongrOfMem {α : Type} {l : List α} {p q : α → Bool}
    (h : ∀ x ∈ l, p x = q x) : l.any p = l.any q := by
  induction l with
  | nil => rfl
  | cons a t ih =>
      simp only [List.any_cons]
      rw [h a (by simp), ih fun x hx => h x (by simp [hx])]

lemma flatMapCongrOfMem {α β : Type} {l : List α} {f g : α → List β}
    (h : ∀ x ∈ l, f x = g x) : l.flatMap f = l.flatMap g := by
  induction l with
  | nil => rfl
  | cons a t ih =>
      simp only [List.flatMap_cons]
      rw [h a (by simp), ih fun x hx => h x (by simp [hx])]

lemma isUpper_ne_nul {ch : Char} (h : isUpper ch = true) : ch ≠ nul := by
  intro hch
  subst hch
  exact absurd h (by decide)

/-! ### Scoring (claim C8) -/

/-- Claim C8: `getPoints` is a pure function of the word's length, returning
0 for length 3 or less, 1 for length 4, 2 for length 5, 3 for length 6, 5
for length 7, and 11 for length 8 or more. -/
theorem getPoints_pure_function_of_length (word : List Char) :
    getPoints word =
      (if 8 ≤ word.length then 11
       else if word.length = 7 then 5
       else if word.length = 6 then 3
       else if word.length = 5 then 2
       else if word.length = 4 then 1
       else 0) := by
  unfold getPoints
  split_ifs <;> omega

/-! ### Frame property (claim C7) -/

/-- Claim C7: after a top-level call to `humanWordSearch` or
`computerWordSearch` returns, the caller's board is unchanged — every cell
holds the same letter as before and no NUL in-use marking persists.  Both
functions only read the grid their reference parameter denotes;
`searchForWord` and `exhaustiveSearch` receive the grid by value, so all
in-use markings happen in copies. -/
theorem board_unchanged_after_search (n minLength : Nat) (board : Board)
    (lex : Lexicon) (humanWords : List (List Char)) (word : List Char) :
    (humanWordSearchSt n board word).2 = board ∧
      (computerWordSearchSt n minLength board lex humanWords).2 = board :=
  ⟨rfl, rfl⟩

/-! ### Empty word (claim C5) -/

lemma searchForWord_nil_word (n : Nat) (board : Board) (start : Char)
    (row col : Int) : searchForWord n board [] [start] row col = false := by
  show searchForWordF n (List.length [] - List.length [start] + 1) board [] [start] row col
    = false
  have h : List.length ([] : List Char) - List.length [start] + 1 = 1 := by simp
  rw [h]
  simp only [searchForWordF]
  rw [if_neg (by simp)]
  rw [List.any_eq_false]
  intro ij _
  simp [List.isPrefixOf]

lemma humanWordSearch_nil_word (n : Nat) (board : Board) :
    humanWordSearch n board [] = false := by
  unfold humanWordSearch
  rw [List.any_eq_false]
  intro row _
  rw [Bool.not_eq_true, List.any_eq_false]
  intro col _
  rw [Bool.not_eq_true]
  simp [searchForWord_nil_word]

/-- Claim C5 (counterexample): called on an uppercase board with the empty
word, `humanWordSearch` does not fail fast with an error — it is an
ordinary total computation that silently returns `false` (the empty word's
`word[0]` is the null character and matches no starting cell). -/
theorem humanWordSearch_empty_word_counterexample :
    humanWordSearch 2 [['A', 'B'], ['C', 'D']] [] = false := by decide

/-- Claim C5 (amended): when `humanWordSearch` is called with an empty word
it raises no error and silently returns `false`, on every board — a caller
cannot distinguish this precondition violation from "word not found". -/
theorem humanWordSearch_empty_word_silent_false (n : Nat) (board : Board) :
    humanWordSearch n board [] = false :=
  humanWordSearch_nil_word n board

/-! ### Termination of the verifier recursion (claim C6) -/

lemma searchForWordF_fuel_irrelevant {n : Nat} {word : List Char} :
    ∀ (a b : Nat) (board : Board) (pW : List Char) (row col : Int),
      word.length - pW.length < a → word.length - pW.length < b →
      searchForWordF n a board word pW row col =
        searchForWordF n b board word pW row col := by
  intro a
  induction a with
  | zero => intro b board pW row col ha _; omega
  | succ a ih =>
      intro b board pW row col ha hb
      cases b with
      | zero => omega
      | succ b =>
          simp only [searchForWordF]
          by_cases hpw : pW = word
          · rw [if_pos hpw, if_pos hpw]
          · rw [if_neg hpw, if_neg hpw]
            apply anyCongrOfMem
            intro ij _
            by_cases hpre :
                (pW ++ [getCell (setCell board row col nul) (row + ij.1) (col + ij.2)]).isPrefixOf
                  word = true
            · have hlen : pW.length + 1 ≤ word.length := by
                have := (List.isPrefixOf_iff_prefix.1 hpre).length_le
                simpa using this
              have hlen2 :
                  (pW ++ [getCell (setCell board row col nul) (row + ij.1) (col + ij.2)]).length
                    = pW.length + 1 := by simp
              rw [ih b (setCell board row col nul) _ (row + ij.1) (col + ij.2)
                (by omega) (by omega)]
            · have hpre2 :
                  (pW ++ [getCell (setCell board row col nul) (row + ij.1) (col + ij.2)]).isPrefixOf
                    word = false := by
                rw [Bool.eq_false_iff]
                exact hpre
              rw [hpre2]
              simp

/-- Claim C6: for every board and word, `searchForWord` terminates with
recursion depth bounded by the length of the word: each recursive call's
accumulated candidate is one letter longer than its caller's and must
remain a prefix of `word`, so the fuel `word.length - potentialWord.length`
dominates the remaining depth — any fuel beyond it computes the same
(total) function `searchForWord`. -/
theorem searchForWord_depth_bounded (n : Nat) (board : Board)
    (word potentialWord : List Char) (row col : Int) (fuel : Nat)
    (h : word.length - potentialWord.length < fuel) :
    searchForWordF n fuel board word potentialWord row col =
      searchForWord n board word potentialWord row col := by
  unfold searchForWord
  exact searchForWordF_fuel_irrelevant fuel (word.length - potentialWord.length + 1)
    board potentialWord row col h (by omega)

/-- Witness for the termination bound of `searchForWord` at a concrete
input. -/
theorem searchForWord_depth_bounded_witness :
    (List.length ['A'] - List.length ['A'] < 1) ∧
      searchForWordF 1 1 [['A']] ['A'] ['A'] 0 0 =
        searchForWord 1 [['A']] ['A'] ['A'] 0 0 :=
  ⟨by decide, searchForWord_depth_bounded 1 [['A']] ['A'] ['A'] 0 0 1 (by decide)⟩

/-! ### Termination of the enumerator recursion (claim C10) -/

lemma exhaustiveSearchF_fuel_irrelevant {n minLength : Nat} {lex : Lexicon}
    {humanWords : List (List Char)} :
    ∀ (a b : Nat) (board : Board) (pW : List Char) (row col : Int),
      nonNulCount (setCell board row col nul) < a →
      nonNulCount (setCell board row col nul) < b →
      exhaustiveSearchF n minLength lex humanWords a board pW row col =
        exhaustiveSearchF n minLength lex humanWords b board pW row col := by
  intro a
  induction a with
  | zero => intro b board pW row col ha _; omega
  | succ a ih =>
      intro b board pW row col ha hb
      cases b with
      | zero => omega
      | succ b =>
          simp only [exhaustiveSearchF]
          by_cases hcp : lex.containsPrefix pW = true
          · rw [if_pos hcp, if_pos hcp]
            congr 1
            apply flatMapCongrOfMem
            intro ij _
            by_cases hg : (inBounds n (row + ij.1) (col + ij.2) &&
                !(getCell (setCell board row col nul) (row + ij.1) (col + ij.2) == nul) &&
                lex.containsPrefix
                  (pW ++ [getCell (setCell board row col nul) (row + ij.1) (col + ij.2)])) = true
            · rw [if_pos hg, if_pos hg]
              have hnn : getCell (setCell board row col nul) (row + ij.1) (col + ij.2) ≠ nul := by
                simp only [Bool.and_eq_true, Bool.not_eq_eq_eq_not, Bool.not_true,
                  beq_eq_false_iff_ne, ne_eq] at hg
                exact hg.1.2
              have hlt := nonNulCount_setCell_lt (setCell board row col nul)
                (row + ij.1) (col + ij.2) hnn
              exact ih b _ _ _ _ (by omega) (by omega)
            · rw [if_neg hg, if_neg hg]
          · rw [if_neg hcp, if_neg hcp]

/-- Claim C10: for every board and lexicon — the lexicon entirely arbitrary,
in particular one whose `containsPrefix` always answers true —
`exhaustiveSearch` terminates with recursion depth bounded by the number of
board cells: each call overwrites its cell with NUL in its own copy of the
board and only recurses into neighbors that are not NUL, so fuel beyond
`n * n` computes the same (total) function `exhaustiveSearch`. -/
theorem exhaustiveSearch_depth_bounded (n minLength : Nat) (board : Board)
    (lex : Lexicon) (humanWords : List (List Char)) (potentialWord : List Char)
    (row col : Int) (fuel : Nat) (hboard : WellFormed n board)
    (hfuel : n * n < fuel) :
    exhaustiveSearchF n minLength lex humanWords fuel board potentialWord row col =
      exhaustiveSearch n minLength board lex humanWords potentialWord row col := by
  unfold exhaustiveSearch
  have h1 : nonNulCount (setCell board row col nul) ≤ n * n :=
    le_trans (nonNulCount_setCell_le board row col) (nonNulCount_le_of_wellFormed hboard)
  exact exhaustiveSearchF_fuel_irrelevant fuel _ board potentialWord row col
    (by omega) (by omega)

instance (n : Nat) (b : Board) : Decidable (WellFormed n b) := by
  unfold WellFormed; infer_instance

/-- Witness for the termination bound of `exhaustiveSearch` at a concrete
input with an adversarial lexicon whose `containsPrefix` is constantly
true. -/
theorem exhaustiveSearch_depth_bounded_witness :
    (WellFormed 1 [['A']] ∧ 1 * 1 < 2) ∧
      exhaustiveSearchF 1 4 (Lexicon.mk (fun _ => true) (fun _ => true)) [] 2 [['A']] ['A'] 0 0 =
        exhaustiveSearch 1 4 [['A']] (Lexicon.mk (fun _ => true) (fun _ => true)) [] ['A'] 0 0 :=
  ⟨⟨by decide, by decide⟩,
    exhaustiveSearch_depth_bounded 1 4 [['A']] (Lexicon.mk (fun _ => true) (fun _ => true))
      [] ['A'] 0 0 2 (by decide) (by decide)⟩

/-! ### What the enumerator returns (claims C2, C9) -/

lemma mem_exhaustiveSearchF {n minLength : Nat} {lex : Lexicon}
    {humanWords : List (List Char)} :
    ∀ (fuel : Nat) (board : Board) (pW : List Char) (row col : Int)
      (w : List Char),
      w ∈ exhaustiveSearchF n minLength lex humanWords fuel board pW row col →
      minLength ≤ w.length ∧ lex.contains w = true ∧
        humanWords.contains w = false ∧ pW <+: w := by
  intro fuel
  induction fuel with
  | zero => intro board pW row col w h; simp [exhaustiveSearchF] at h
  | succ fuel ih =>
      intro board pW row col w h
      simp only [exhaustiveSearchF] at h
      have hfound : ∀ hw : w ∈ (if lex.contains pW && decide (minLength ≤ pW.length) &&
          !(humanWords.contains pW) then [pW] else ([] : List (List Char))),
          minLength ≤ w.length ∧ lex.contains w = true ∧
            humanWords.contains w = false ∧ pW <+: w := by
        intro hw
        by_cases hc : (lex.contains pW && decide (minLength ≤ pW.length) &&
            !(humanWords.contains pW)) = true
        · rw [if_pos hc] at hw
          have hwp : w = pW := by simpa using hw
          subst hwp
          simp only [Bool.and_eq_true, decide_eq_true_eq, Bool.not_eq_eq_eq_not,
            Bool.not_true] at hc
          exact ⟨hc.1.2, hc.1.1, hc.2, List.prefix_refl w⟩
        · rw [if_neg hc] at hw
          simp at hw
      have hloop : ∀ hw : w ∈ offsets.flatMap fun ij =>
          (if inBounds n (row + ij.1) (col + ij.2) &&
              !(getCell (setCell board row col nul) (row + ij.1) (col + ij.2) == nul) &&
              lex.containsPrefix
                (pW ++ [getCell (setCell board row col nul) (row + ij.1) (col + ij.2)]) then
            exhaustiveSearchF n minLength lex humanWords fuel (setCell board row col nul)
              (pW ++ [getCell (setCell board row col nul) (row + ij.1) (col + ij.2)])
              (row + ij.1) (col + ij.2)
          else []),
          minLength ≤ w.length ∧ lex.contains w = true ∧
            humanWords.contains w = false ∧ pW <+: w := by
        intro hw
        rcases List.mem_flatMap.1 hw with ⟨ij, _, hmem⟩
        by_cases hg : (inBounds n (row + ij.1) (col + ij.2) &&
            !(getCell (setCell board row col nul) (row + ij.1) (col + ij.2) == nul) &&
            lex.containsPrefix
              (pW ++ [getCell (setCell board row col nul) (row + ij.1) (col + ij.2)])) = true
        · rw [if_pos hg] at hmem
          have := ih _ _ _ _ _ hmem
          exact ⟨this.1, this.2.1, this.2.2.1,
            ((pW.prefix_append _).trans this.2.2.2)⟩
        · rw [if_neg hg] at hmem
          simp at hmem
      by_cases hcp : lex.containsPrefix pW = true
      · rw [if_pos hcp] at h
        rcases List.mem_append.1 h with h1 | h1
        · exact hfound h1
        · exact hloop h1
      · rw [if_neg hcp] at h
        exact hfound h

/-- Claim C2: every word in the set returned by `computerWordSearch`
(`findAllWords`) has length at least `minLength`, is contained in the
lexicon, and is not a member of the exclusion set `humanWords`. -/
theorem computerWordSearch_filters (n minLength : Nat) (board : Board)
    (lex : Lexicon) (humanWords : List (List Char)) (w : List Char)
    (hmem : w ∈ computerWordSearch n minLength board lex humanWords) :
    minLength ≤ w.length ∧ lex.contains w = true ∧
      humanWords.contains w = false := by
  unfold computerWordSearch at hmem
  rcases List.mem_flatMap.1 hmem with ⟨row, _, h2⟩
  rcases List.mem_flatMap.1 h2 with ⟨col, _, h3⟩
  unfold exhaustiveSearch at h3
  have := mem_exhaustiveSearchF _ _ _ _ _ _ h3
  exact ⟨this.1, this.2.1, this.2.2.1⟩

/-- Witness for the filter property of `computerWordSearch` at a concrete
input. -/
theorem computerWordSearch_filters_witness :
    (['A'] ∈ computerWordSearch 1 1 [['A']] (lexiconOfWords [['A']]) []) ∧
      (1 ≤ List.length ['A'] ∧ (lexiconOfWords [['A']]).contains ['A'] = true ∧
        List.contains ([] : List (List Char)) ['A'] = false) :=
  ⟨by decide,
    computerWordSearch_filters 1 1 [['A']] (lexiconOfWords [['A']]) [] ['A'] (by decide)⟩

lemma mem_exhaustiveSearchF_exclusion {n minLength : Nat} {lex : Lexicon}
    (humanWords : List (List Char)) :
    ∀ (fuel : Nat) (board : Board) (pW : List Char) (row col : Int)
      (w : List Char),
      w ∈ exhaustiveSearchF n minLength lex humanWords fuel board pW row col ↔
        (w ∈ exhaustiveSearchF n minLength lex [] fuel board pW row col ∧
          humanWords.contains w = false) := by
  intro fuel
  induction fuel with
  | zero => intro board pW row col w; simp [exhaustiveSearchF]
  | succ fuel ih =>
      intro board pW row col w
      have hnil : (([] : List (List Char)).contains pW) = false := rfl
      by_cases hcp : lex.containsPrefix pW = true
      · simp only [exhaustiveSearchF, hcp, if_true, hnil, Bool.not_false, Bool.and_true,
          List.mem_append, List.mem_flatMap]
        constructor
        · rintro (hf | ⟨ij, hij, hb⟩)
          · by_cases hc : (lex.contains pW && decide (minLength ≤ pW.length) &&
                !(humanWords.contains pW)) = true
            · rw [if_pos hc] at hf
              have hwp : w = pW := by simpa using hf
              subst hwp
              simp only [Bool.and_eq_true, Bool.not_eq_eq_eq_not, Bool.not_true,
                decide_eq_true_eq] at hc
              refine ⟨Or.inl ?_, hc.2⟩
              rw [if_pos (by simp [hc.1.1, hc.1.2])]
              simp
            · rw [if_neg hc] at hf
              simp at hf
          · by_cases hg : (inBounds n (row + ij.1) (col + ij.2) &&
                !(getCell (setCell board row col nul) (row + ij.1) (col + ij.2) == nul) &&
                lex.containsPrefix
                  (pW ++ [getCell (setCell board row col nul) (row + ij.1) (col + ij.2)])) = true
            · rw [if_pos hg] at hb
              rcases (ih _ _ _ _ _).1 hb with ⟨hbR, hP⟩
              refine ⟨Or.inr ⟨ij, hij, ?_⟩, hP⟩
              rw [if_pos hg]
              exact hbR
            · rw [if_neg hg] at hb
              simp at hb
        · rintro ⟨hf | ⟨ij, hij, hb⟩, hP⟩
          · by_cases hc : (lex.contains pW && decide (minLength ≤ pW.length)) = true
            · rw [if_pos hc] at hf
              have hwp : w = pW := by simpa using hf
              subst hwp
              refine Or.inl ?_
              rw [if_pos (by simp only [Bool.and_eq_true] at hc ⊢; simp [hc.1, hc.2]; simpa using hP)]
              simp
            · rw [if_neg hc] at hf
              simp at hf
          · by_cases hg : (inBounds n (row + ij.1) (col + ij.2) &&
                !(getCell (setCell board row col nul) (row + ij.1) (col + ij.2) == nul) &&
                lex.containsPrefix
                  (pW ++ [getCell (setCell board row col nul) (row + ij.1) (col + ij.2)])) = true
            · rw [if_pos hg] at hb
              refine Or.inr ⟨ij, hij, ?_⟩
              rw [if_pos hg]
              exact (ih _ _ _ _ _).2 ⟨hb, hP⟩
            · rw [if_neg hg] at hb
              simp at hb
      · have hcp2 : lex.containsPrefix pW = false := by
          rw [Bool.eq_false_iff]; exact hcp
        simp only [exhaustiveSearchF, hcp2, if_false, hnil, Bool.not_false, Bool.and_true,
          Bool.false_eq_true]
        constructor
        · intro hf
          by_cases hc : (lex.contains pW && decide (minLength ≤ pW.length) &&
              !(humanWords.contains pW)) = true
          · rw [if_pos hc] at hf
            have hwp : w = pW := by simpa using hf
            subst hwp
            simp only [Bool.and_eq_true, Bool.not_eq_eq_eq_not, Bool.not_true,
              decide_eq_true_eq] at hc
            refine ⟨?_, hc.2⟩
            rw [if_pos (by simp [hc.1.1, hc.1.2])]
            simp
          · rw [if_neg hc] at hf
            simp at hf
        · rintro ⟨hf, hP⟩
          by_cases hc : (lex.contains pW && decide (minLength ≤ pW.length)) = true
          · rw [if_pos hc] at hf
            have hwp : w = pW := by simpa using hf
            subst hwp
            rw [if_pos (by simp only [Bool.and_eq_true] at hc ⊢; simp [hc.1, hc.2]; simpa using hP)]
            simp
          · rw [if_neg hc] at hf
            simp at hf

/-- Claim C9: the exclusion set only filters which candidates enter the
result and never affects which branches are explored —
`computerWordSearch` with exclusion set `humanWords` returns exactly the set
returned with the empty exclusion set minus the excluded words. -/
theorem computerWordSearch_exclusion_filters (n minLength : Nat) (board : Board)
    (lex : Lexicon) (humanWords : List (List Char)) (w : List Char) :
    w ∈ computerWordSearch n minLength board lex humanWords ↔
      (w ∈ computerWordSearch n minLength board lex [] ∧
        humanWords.contains w = false) := by
  unfold computerWordSearch exhaustiveSearch
  simp only [List.mem_flatMap]
  constructor
  · rintro ⟨row, hrow, col, hcol, hmem⟩
    rcases (mem_exhaustiveSearchF_exclusion humanWords _ _ _ _ _ _).1 hmem with ⟨hR, hP⟩
    exact ⟨⟨row, hrow, col, hcol, hR⟩, hP⟩
  · rintro ⟨⟨row, hrow, col, hcol, hmem⟩, hP⟩
    exact ⟨row, hrow, col, hcol,
      (mem_exhaustiveSearchF_exclusion humanWords _ _ _ _ _ _).2 ⟨hmem, hP⟩⟩

/-! ### Pruning correctness (claim C3) -/

lemma mem_exhaustiveSearchNoPruneF {n minLength : Nat} {lex : Lexicon}
    {humanWords : List (List Char)} :
    ∀ (fuel : Nat) (board : Board) (pW : List Char) (row col : Int)
      (w : List Char),
      w ∈ exhaustiveSearchNoPruneF n minLength lex humanWords fuel board pW row col →
      lex.contains w = true ∧ pW <+: w := by
  intro fuel
  induction fuel with
  | zero => intro board pW row col w h; simp [exhaustiveSearchNoPruneF] at h
  | succ fuel ih =>
      intro board pW row col w h
      simp only [exhaustiveSearchNoPruneF, List.mem_append, List.mem_flatMap] at h
      rcases h with hf | ⟨ij, hij, hb⟩
      · by_cases hc : (lex.contains pW && decide (minLength ≤ pW.length) &&
            !(humanWords.contains pW)) = true
        · rw [if_pos hc] at hf
          have hwp : w = pW := by simpa using hf
          subst hwp
          simp only [Bool.and_eq_true, decide_eq_true_eq] at hc
          exact ⟨hc.1.1, List.prefix_refl w⟩
        · rw [if_neg hc] at hf
          simp at hf
      · by_cases hg : (inBounds n (row + ij.1) (col + ij.2) &&
            !(getCell (setCell board row col nul) (row + ij.1) (col + ij.2) == nul)) = true
        · rw [if_pos hg] at hb
          have := ih _ _ _ _ _ hb
          exact ⟨this.1, (pW.prefix_append _).trans this.2⟩
        · rw [if_neg hg] at hb
          simp at hb

lemma lexiconOfWords_containsPrefix_of {ws : List (List Char)} {w p : List Char}
    (hc : (lexiconOfWords ws).contains w = true) (hp : p <+: w) :
    (lexiconOfWords ws).containsPrefix p = true := by
  have hw : w ∈ ws := List.elem_iff.1 hc
  show (ws.any fun v => p.isPrefixOf v) = true
  rw [List.any_eq_true]
  exact ⟨w, hw, List.isPrefixOf_iff_prefix.2 hp⟩

lemma mem_exhaustiveSearchNoPruneF_iff {n minLength : Nat}
    {ws humanWords : List (List Char)} :
    ∀ (fuel : Nat) (board : Board) (pW : List Char) (row col : Int)
      (w : List Char),
      w ∈ exhaustiveSearchNoPruneF n minLength (lexiconOfWords ws) humanWords
          fuel board pW row col ↔
        w ∈ exhaustiveSearchF n minLength (lexiconOfWords ws) humanWords
          fuel board pW row col := by
  intro fuel
  induction fuel with
  | zero => intro board pW row col w; simp [exhaustiveSearchNoPruneF, exhaustiveSearchF]
  | succ fuel ih =>
      intro board pW row col w
      by_cases hcp : (lexiconOfWords ws).containsPrefix pW = true
      · simp only [exhaustiveSearchNoPruneF, exhaustiveSearchF, hcp, if_true,
          List.mem_append, List.mem_flatMap]
        apply or_congr Iff.rfl
        constructor
        · rintro ⟨ij, hij, hb⟩
          by_cases hg : (inBounds n (row + ij.1) (col + ij.2) &&
              !(getCell (setCell board row col nul) (row + ij.1) (col + ij.2) == nul)) = true
          · rw [if_pos hg] at hb
            by_cases hg2 : (lexiconOfWords ws).containsPrefix
                (pW ++ [getCell (setCell board row col nul) (row + ij.1) (col + ij.2)]) = true
            · refine ⟨ij, hij, ?_⟩
              rw [if_pos (by rw [Bool.and_eq_true]; exact ⟨hg, hg2⟩)]
              exact (ih _ _ _ _ _).1 hb
            · exfalso
              have hmem := mem_exhaustiveSearchNoPruneF _ _ _ _ _ _ hb
              exact hg2 (lexiconOfWords_containsPrefix_of hmem.1 hmem.2)
          · rw [if_neg hg] at hb
            simp at hb
        · rintro ⟨ij, hij, hb⟩
          by_cases hgp : (inBounds n (row + ij.1) (col + ij.2) &&
              !(getCell (setCell board row col nul) (row + ij.1) (col + ij.2) == nul) &&
              (lexiconOfWords ws).containsPrefix
                (pW ++ [getCell (setCell board row col nul) (row + ij.1) (col + ij.2)])) = true
          · rw [if_pos hgp] at hb
            have hg : (inBounds n (row + ij.1) (col + ij.2) &&
                !(getCell (setCell board row col nul) (row + ij.1) (col + ij.2) == nul)) = true := by
              rw [Bool.and_eq_true] at hgp
              exact hgp.1
            refine ⟨ij, hij, ?_⟩
            rw [if_pos hg]
            exact (ih _ _ _ _ _).2 hb
          · rw [if_neg hgp] at hb
            simp at hb
      · have hcp2 : (lexiconOfWords ws).containsPrefix pW = false := by
          rw [Bool.eq_false_iff]; exact hcp
        simp only [exhaustiveSearchNoPruneF, exhaustiveSearchF, hcp2, if_false,
          List.mem_append, List.mem_flatMap]
        constructor
        · rintro (hf | ⟨ij, hij, hb⟩)
          · exact hf
          · exfalso
            by_cases hg : (inBounds n (row + ij.1) (col + ij.2) &&
                !(getCell (setCell board row col nul) (row + ij.1) (col + ij.2) == nul)) = true
            · rw [if_pos hg] at hb
              have hmem := mem_exhaustiveSearchNoPruneF _ _ _ _ _ _ hb
              have hpre : pW <+: w := (pW.prefix_append _).trans hmem.2
              exact hcp (lexiconOfWords_containsPrefix_of hmem.1 hpre)
            · rw [if_neg hg] at hb
              simp at hb
        · intro hf
          exact Or.inl hf

/-- Claim C3: removing the two `containsPrefix` pruning checks from the
exhaustive enumeration changes no element of the output of
`computerWordSearch` (`findAllWords`): with a lexicon whose
`containsPrefix` answers "some entry starts with this" honestly, a pruned
branch can never contribute a word, because every word a branch adds
extends the branch's candidate and lies in the lexicon. -/
theorem computerWordSearch_pruning_correct (n minLength : Nat) (board : Board)
    (ws humanWords : List (List Char)) (w : List Char) :
    w ∈ computerWordSearchNoPrune n minLength board (lexiconOfWords ws) humanWords ↔
      w ∈ computerWordSearch n minLength board (lexiconOfWords ws) humanWords := by
  unfold computerWordSearchNoPrune computerWordSearch exhaustiveSearchNoPrune exhaustiveSearch
  simp only [List.mem_flatMap]
  constructor
  · rintro ⟨row, hrow, col, hcol, hmem⟩
    exact ⟨row, hrow, col, hcol, (mem_exhaustiveSearchNoPruneF_iff _ _ _ _ _ _).1 hmem⟩
  · rintro ⟨row, hrow, col, hcol, hmem⟩
    exact ⟨row, hrow, col, hcol, (mem_exhaustiveSearchNoPruneF_iff _ _ _ _ _ _).2 hmem⟩

/-! ### Characterising the verifier search (claims C1, C4) -/

lemma searchForWordF_eq_true_iff {n : Nat} {word : List Char} :
    ∀ (fuel : Nat) (board : Board) (pW : List Char) (row col : Int),
      word.length - pW.length < fuel →
      (searchForWordF n fuel board word pW row col = true ↔
        (pW <+: word ∧
          ∃ q, spellsFrom n (setCell board row col nul) (word.drop pW.length)
            (row, col) q)) := by
  intro fuel
  induction fuel with
  | zero => intro board pW row col ha; omega
  | succ fuel ih =>
      intro board pW row col ha
      simp only [searchForWordF]
      by_cases hpw : pW = word
      · subst hpw
        rw [if_pos rfl]
        constructor
        · intro _
          refine ⟨List.prefix_refl _, [], ?_⟩
          rw [List.drop_length]
          simp [spellsFrom]
        · intro _
          rfl
      · rw [if_neg hpw, List.any_eq_true]
        by_cases hpre : pW <+: word
        · have hlt : pW.length < word.length := proper_prefix_length_lt hpre hpw
          have hdrop : word.drop pW.length = word[pW.length] :: word.drop (pW.length + 1) :=
            List.drop_eq_getElem_cons hlt
          constructor
          · rintro ⟨ij, hij, hand⟩
            simp only [Bool.and_eq_true] at hand
            obtain ⟨⟨hinB, hisPre⟩, hrec⟩ := hand
            have hpre2 : (pW ++ [getCell (setCell board row col nul) (row + ij.1)
                (col + ij.2)]) <+: word := List.isPrefixOf_iff_prefix.1 hisPre
            have hsnoc := (prefix_snoc_iff _ _ _).1 hpre2
            have hlen2 : (pW ++ [getCell (setCell board row col nul) (row + ij.1)
                (col + ij.2)]).length = pW.length + 1 := by simp
            have hi := (ih (setCell board row col nul) _ (row + ij.1) (col + ij.2)
              (by rw [hlen2]; omega)).1 hrec
            obtain ⟨_, q, hq⟩ := hi
            rw [hlen2] at hq
            refine ⟨hpre, (row + ij.1, col + ij.2) :: q, ?_⟩
            rw [hdrop]
            have hoff := mem_offsets.1 hij
            have hch : getCell (setCell board row col nul) (row + ij.1) (col + ij.2)
                = word[pW.length] := by
              have h12 := hsnoc.2.symm.trans hdrop
              simp only [List.cons.injEq] at h12
              exact h12.1
            simp only [spellsFrom]
            exact ⟨by omega, by omega, hinB, hch, hq⟩
          · rintro ⟨_, q, hq⟩
            rw [hdrop] at hq
            cases q with
            | nil => simp [spellsFrom] at hq
            | cons cell q2 =>
                simp only [spellsFrom] at hq
                obtain ⟨h1, h2, hinB, hget, hrest⟩ := hq
                obtain ⟨a, b⟩ := cell
                simp only at h1 h2 hinB hget hrest
                refine ⟨(a - row, b - col), mem_offsets.2 ⟨by omega, by omega⟩, ?_⟩
                have e1 : row + (a - row) = a := by ring
                have e2 : col + (b - col) = b := by ring
                simp only [e1, e2, Bool.and_eq_true]
                have hisPre : (pW ++ [getCell (setCell board row col nul) a b]).isPrefixOf
                    word = true := by
                  rw [hget]
                  exact List.isPrefixOf_iff_prefix.2
                    ((prefix_snoc_iff _ _ _).2 ⟨hpre, by rw [hdrop]⟩)
                refine ⟨⟨hinB, hisPre⟩, ?_⟩
                have hlen2 : (pW ++ [getCell (setCell board row col nul) a b]).length
                    = pW.length + 1 := by simp
                apply (ih (setCell board row col nul) _ a b (by rw [hlen2]; omega)).2
                refine ⟨List.isPrefixOf_iff_prefix.1 hisPre, q2, ?_⟩
                rw [hlen2]
                exact hrest
        · constructor
          · rintro ⟨ij, hij, hand⟩
            exfalso
            simp only [Bool.and_eq_true] at hand
            exact hpre ((pW.prefix_append _).trans
              (List.isPrefixOf_iff_prefix.1 hand.1.2))
          · rintro ⟨hp, _⟩
            exact absurd hp hpre

lemma spellsFrom_to_path {n : Nat} :
    ∀ (suffix : List Char) (board : Board) (prev : Int × Int)
      (q : List (Int × Int)),
      (∀ ch ∈ suffix, ch ≠ nul) →
      inBounds n prev.1 prev.2 = true →
      getCell board prev.1 prev.2 = nul →
      spellsFrom n board suffix prev q →
      (q.map (fun cell => getCell board cell.1 cell.2) = suffix ∧
        (∀ cell ∈ q, inBounds n cell.1 cell.2 = true) ∧
        List.Chain' adjacentCells (prev :: q) ∧ (prev :: q).Nodup) := by
  intro suffix
  induction suffix with
  | nil =>
      intro board prev q _ _ _ hsp
      cases q with
      | nil => simp
      | cons c q2 => simp [spellsFrom] at hsp
  | cons ch rest ih =>
      intro board prev q hnul hprevB hprevN hsp
      cases q with
      | nil => simp [spellsFrom] at hsp
      | cons cell q2 =>
          simp only [spellsFrom] at hsp
          obtain ⟨h1, h2, hB, hget, hrest⟩ := hsp
          have hchne : ch ≠ nul := hnul ch (by simp)
          have hcellne : cell ≠ prev := by
            intro he
            rw [he, hprevN] at hget
            exact hchne hget.symm
          have hprevN2 : getCell (setCell board cell.1 cell.2 nul) cell.1 cell.2 = nul :=
            getCell_setCell_nul _ _ _
          have hIH := ih (setCell board cell.1 cell.2 nul) cell q2
            (fun c hc => hnul c (by simp [hc])) hB hprevN2 hrest
          obtain ⟨hmap2, hinB2, hchain2, hnodup2⟩ := hIH
          have hqne : ∀ c2 ∈ q2, getCell (setCell board cell.1 cell.2 nul) c2.1 c2.2 ≠ nul := by
            intro c2 hc2
            have hmem : getCell (setCell board cell.1 cell.2 nul) c2.1 c2.2 ∈ rest := by
              rw [← hmap2]
              exact List.mem_map_of_mem _ hc2
            exact hnul _ (by simp [hmem])
          have hqcell : ∀ c2 ∈ q2, c2 ≠ cell := by
            intro c2 hc2 he
            apply hqne c2 hc2
            rw [he]
            exact hprevN2
          have hmapq : q2.map (fun c => getCell board c.1 c.2) = rest := by
            rw [← hmap2]
            apply List.map_congr_left
            intro c2 hc2
            refine (getCell_setCell_ne board nul hB (hinB2 c2 hc2) ?_).symm
            rintro ⟨e1, e2⟩
            exact hqcell c2 hc2 (Prod.ext e1 e2).symm
          refine ⟨?_, ?_, ?_, ?_⟩
          · simp only [List.map_cons]
            rw [hget, hmapq]
          · intro c hc
            rcases List.mem_cons.1 hc with rfl | hc2
            · exact hB
            · exact hinB2 c hc2
          · rw [List.chain'_cons]
            exact ⟨⟨Ne.symm hcellne, by omega, by omega⟩, hchain2⟩
          · rw [List.nodup_cons]
            refine ⟨?_, hnodup2⟩
            intro hmemc
            rcases List.mem_cons.1 hmemc with he | hq
            · exact hcellne he.symm
            · apply hqne prev hq
              have hne2 : ¬(cell.1 = prev.1 ∧ cell.2 = prev.2) := by
                rintro ⟨e1, e2⟩
                exact hcellne (Prod.ext e1 e2)
              rw [getCell_setCell_ne board nul hB hprevB hne2]
              exact hprevN

lemma path_to_spellsFrom {n : Nat} :
    ∀ (q : List (Int × Int)) (board : Board) (prev : Int × Int),
      inBounds n prev.1 prev.2 = true →
      (∀ cell ∈ q, inBounds n cell.1 cell.2 = true) →
      (prev :: q).Nodup →
      List.Chain' adjacentCells (prev :: q) →
      spellsFrom n (setCell board prev.1 prev.2 nul)
        (q.map fun cell => getCell board cell.1 cell.2) prev q := by
  intro q
  induction q with
  | nil =>
      intro board prev _ _ _ _
      simp [spellsFrom]
  | cons cell q2 ih =>
      intro board prev hprevB hinB hnodup hchain
      simp only [List.map_cons, spellsFrom]
      have hadj : adjacentCells prev cell := (List.chain'_cons.1 hchain).1
      have hcB : inBounds n cell.1 cell.2 = true := hinB cell (by simp)
      have hprev_ne : prev ≠ cell := hadj.1
      have hne : ¬(prev.1 = cell.1 ∧ prev.2 = cell.2) := by
        rintro ⟨e1, e2⟩
        exact hprev_ne (Prod.ext e1 e2)
      have hd1 : (cell.1 - prev.1).natAbs ≤ 1 := by
        have := hadj.2.1
        omega
      have hd2 : (cell.2 - prev.2).natAbs ≤ 1 := by
        have := hadj.2.2
        omega
      refine ⟨hd1, hd2, hcB, getCell_setCell_ne board nul hprevB hcB hne, ?_⟩
      have hmap2 : q2.map (fun c => getCell (setCell board prev.1 prev.2 nul) c.1 c.2)
          = q2.map (fun c => getCell board c.1 c.2) := by
        apply List.map_congr_left
        intro c2 hc2
        apply getCell_setCell_ne board nul hprevB (hinB c2 (by simp [hc2]))
        rintro ⟨e1, e2⟩
        have heq : prev = c2 := Prod.ext e1 e2
        have hn := (List.nodup_cons.1 hnodup).1
        apply hn
        rw [heq]
        simp [hc2]
      have := ih (setCell board prev.1 prev.2 nul) cell hcB
        (fun c hc => hinB c (by simp [hc]))
        ((List.nodup_cons.1 hnodup).2)
        ((List.chain'_cons.1 hchain).2)
      rw [hmap2] at this
      exact this

lemma humanWordSearch_eq_true_iff {n : Nat} {board : Board} {word : List Char} :
    humanWordSearch n board word = true ↔
      ∃ row, row ∈ List.range n ∧ ∃ col, col ∈ List.range n ∧
        getCell board row col = word.headD nul ∧
        searchForWord n board word [getCell board row col] row col = true := by
  unfold humanWordSearch
  rw [List.any_eq_true]
  constructor
  · rintro ⟨row, hrow, h⟩
    rw [List.any_eq_true] at h
    obtain ⟨col, hcol, h2⟩ := h
    simp only [Bool.and_eq_true, decide_eq_true_eq] at h2
    exact ⟨row, hrow, col, hcol, h2.1, h2.2⟩
  · rintro ⟨row, hrow, col, hcol, h1, h2⟩
    refine ⟨row, hrow, ?_⟩
    rw [List.any_eq_true]
    refine ⟨col, hcol, ?_⟩
    simp only [Bool.and_eq_true, decide_eq_true_eq]
    exact ⟨h1, h2⟩

lemma path_of_humanWordSearch {n : Nat} {board : Board} {word : List Char}
    (hword : ∀ ch ∈ word, ch ≠ nul) (hne : word ≠ [])
    (h : humanWordSearch n board word = true) :
    ∃ p, isValidPath n board word p := by
  obtain ⟨w0, wrest, rfl⟩ : ∃ a l, word = a :: l := by
    cases word with
    | nil => exact absurd rfl hne
    | cons a l => exact ⟨a, l, rfl⟩
  obtain ⟨row, hrow, col, hcol, hstart, hsearch⟩ := humanWordSearch_eq_true_iff.1 h
  rw [List.mem_range] at hrow hcol
  have hstart2 : getCell board row col = w0 := hstart
  unfold searchForWord at hsearch
  have hiff := @searchForWordF_eq_true_iff n (w0 :: wrest)
    ((w0 :: wrest).length - (List.length [getCell board (row : Int) (col : Int)]) + 1)
    board [getCell board (row : Int) (col : Int)] row col (by omega)
  obtain ⟨_, q, hspell⟩ := hiff.1 hsearch
  have hdrop1 : (w0 :: wrest).drop (List.length [getCell board (row : Int) (col : Int)])
      = wrest := by simp
  rw [hdrop1] at hspell
  have hprevB : inBounds n (row : Int) (col : Int) = true := by
    rw [inBounds_iff]
    omega
  have hprevN : getCell (setCell board row col nul) row col = nul :=
    getCell_setCell_nul board row col
  have hB1 := spellsFrom_to_path wrest (setCell board row col nul)
    ((row : Int), (col : Int)) q
    (fun ch hch => hword ch (by simp [hch])) hprevB hprevN hspell
  obtain ⟨hmap, hinB, hchain, hnodup⟩ := hB1
  refine ⟨((row : Int), (col : Int)) :: q, hnodup, ?_, hchain, ?_⟩
  · intro cell hc
    rcases List.mem_cons.1 hc with rfl | hc2
    · exact hprevB
    · exact hinB cell hc2
  · simp only [List.map_cons]
    rw [hstart2]
    congr 1
    rw [← hmap]
    apply List.map_congr_left
    intro cell hc
    have hcb : inBounds n cell.1 cell.2 = true := hinB cell hc
    refine (getCell_setCell_ne board nul hprevB hcb ?_).symm
    rintro ⟨e1, e2⟩
    have hmem : getCell (setCell board row col nul) cell.1 cell.2 ∈ wrest := by
      rw [← hmap]
      exact List.mem_map_of_mem _ hc
    have hcv : getCell (setCell board (row : Int) (col : Int) nul) cell.1 cell.2 = nul := by
      rw [← e1, ← e2]
      exact hprevN
    rw [hcv] at hmem
    exact hword nul (by simp [hmem]) rfl

lemma humanWordSearch_of_path {n : Nat} {board : Board} {w0 : Char}
    {wrest : List Char} {p : List (Int × Int)}
    (hvp : isValidPath n board (w0 :: wrest) p) :
    humanWordSearch n board (w0 :: wrest) = true := by
  obtain ⟨hnodup, hinB, hchain, hmap⟩ := hvp
  cases p with
  | nil => simp at hmap
  | cons cell0 q =>
      obtain ⟨a, b⟩ := cell0
      simp only [List.map_cons, List.cons.injEq] at hmap
      obtain ⟨hstart, hmapq⟩ := hmap
      have hB : inBounds n a b = true := hinB (a, b) (by simp)
      have hBi := inBounds_iff.1 hB
      have ha : ((a.toNat : Int)) = a := Int.toNat_of_nonneg hBi.1
      have hb : ((b.toNat : Int)) = b := Int.toNat_of_nonneg hBi.2.2.1
      apply humanWordSearch_eq_true_iff.2
      refine ⟨a.toNat, ?_, b.toNat, ?_, ?_, ?_⟩
      · rw [List.mem_range]
        omega
      · rw [List.mem_range]
        omega
      · rw [ha, hb, hstart]
        rfl
      · unfold searchForWord
        rw [ha, hb]
        apply (@searchForWordF_eq_true_iff n (w0 :: wrest)
          ((w0 :: wrest).length - (List.length [getCell board a b]) + 1)
          board [getCell board a b] a b (by omega)).2
        refine ⟨?_, q, ?_⟩
        · rw [hstart]
          exact ⟨wrest, rfl⟩
        · have hdrop : (w0 :: wrest).drop (List.length [getCell board a b]) = wrest := by
            simp
          rw [hdrop]
          have hsp := path_to_spellsFrom q board (a, b) hB
            (fun cell hc => hinB cell (by simp [hc])) hnodup hchain
          rw [hmapq] at hsp
          exact hsp

/-- Claim C1: on a board of uppercase letters and for a non-empty uppercase
word, `humanWordSearch` (`verify`) returns true if and only if the word can
be read along some path of pairwise-distinct, consecutively 8-adjacent
cells of the board; the result depends only on the existence of such a
path. -/
theorem humanWordSearch_iff_path (n : Nat) (board : Board) (word : List Char)
    (hboard : ∀ rowList ∈ board, ∀ ch ∈ rowList, isUpper ch = true)
    (hne : word ≠ []) (hupper : ∀ ch ∈ word, isUpper ch = true) :
    (humanWordSearch n board word = true ↔ ∃ p, isValidPath n board word p) := by
  have hub : ∀ ch ∈ word, ch ≠ nul := fun ch hch => isUpper_ne_nul (hupper ch hch)
  constructor
  · exact path_of_humanWordSearch hub hne
  · rintro ⟨p, hp⟩
    cases word with
    | nil => exact absurd rfl hne
    | cons w0 wrest => exact humanWordSearch_of_path hp

/-- Witness for the path characterisation of `humanWordSearch` at a
concrete input. -/
theorem humanWordSearch_iff_path_witness :
    ((∀ rowList ∈ [['A']], ∀ ch ∈ rowList, isUpper ch = true) ∧
        (['A'] : List Char) ≠ [] ∧ (∀ ch ∈ ['A'], isUpper ch = true)) ∧
      (humanWordSearch 1 [['A']] ['A'] = true ↔
        ∃ p, isValidPath 1 [['A']] ['A'] p) :=
  ⟨⟨by decide, by decide, by decide⟩,
    humanWordSearch_iff_path 1 [['A']] ['A'] (by decide) (by decide) (by decide)⟩

/-- There is no path reading the word "B" on the single-cell board "A". -/
lemma no_path_B_on_A : ¬ ∃ p, isValidPath 1 [['A']] ['B'] p := by
  rintro ⟨p, hnodup, hinB, hchain, hmap⟩
  cases p with
  | nil => simp at hmap
  | cons cell q =>
      cases q with
      | cons c2 q2 => simp at hmap
      | nil =>
          simp only [List.map_cons, List.map_nil, List.cons.injEq] at hmap
          obtain ⟨hget, -⟩ := hmap
          have hB := hinB cell (by simp)
          rw [inBounds_iff] at hB
          obtain ⟨a, b⟩ := cell
          simp only at hB hget
          have ha : a = 0 := by omega
          have hb : b = 0 := by omega
          subst ha
          subst hb
          exact absurd hget (by decide)

/-- Claim C4: `verify` never uses a board cell twice within one candidate
path — on a board whose letters contain no NUL character, for a word
containing no NUL character, if every way of reading the word on the board
would have to revisit some cell (no path of pairwise-distinct cells spells
it), then `humanWordSearch` returns false. -/
theorem humanWordSearch_no_cell_reuse (n : Nat) (board : Board) (word : List Char)
    (hboard : ∀ rowList ∈ board, ∀ ch ∈ rowList, ch ≠ nul)
    (hword : ∀ ch ∈ word, ch ≠ nul)
    (hnopath : ¬ ∃ p, isValidPath n board word p) :
    humanWordSearch n board word = false := by
  cases word with
  | nil => exact humanWordSearch_nil_word n board
  | cons w0 wrest =>
      by_contra h
      rw [Bool.not_eq_false] at h
      exact hnopath (path_of_humanWordSearch hword (by simp) h)

/-- Witness for the no-cell-reuse property at a concrete input. -/
theorem humanWordSearch_no_cell_reuse_witness :
    ((∀ rowList ∈ [['A']], ∀ ch ∈ rowList, ch ≠ nul) ∧
        (∀ ch ∈ ['B'], ch ≠ nul) ∧ ¬ ∃ p, isValidPath 1 [['A']] ['B'] p) ∧
      humanWordSearch 1 [['A']] ['B'] = false :=
  ⟨⟨by decide, by decide, no_path_B_on_A⟩,
    humanWordSearch_no_cell_reuse 1 [['A']] ['B'] (by decide) (by decide) no_path_B_on_A⟩
